import Mathlib

/-!
Verification development for the binary / multi-vehicle paint-shop notebook.

The source is a notebook that paints an ordered sequence of typed cars in two
colors (white/black).  It contains:
* a set-based greedy heuristic for the binary case (each type occurs twice,
  one car of each type per color),
* a counter-based greedy heuristic for the general per-type demand case,
* a quadratic exact formulation whose objective sums the squared differences
  of adjacent binary variables, with one per-type equality constraint,
* a serialisation of a symmetric QUBO matrix into a coefficient map keyed by
  upper-triangular index pairs.

All definitions below are shallow embeddings of the notebook cells, except
where a doc comment says `Modelled from the spec:`.
-/

namespace Paintshop

/-- The two paint colors used throughout the notebook
(`"white"` / `"black"` strings in the source). -/
inductive Color : Type
  | white : Color
  | black : Color
  deriving DecidableEq, Repr

/-- Flipping the current color, embedding the notebook's
`if current_color == "white": current_color = "black" else: ... = "white"`. -/
def Color.flip : Color → Color
  | .white => .black
  | .black => .white

/-- Modelled from the spec: the Switch-Count Evaluator (spec 4.3), counting
positions `p` in `1..n-1` where `assignment[p] != assignment[p-1]`.
(The notebook has no standalone evaluator; this is the spec's component,
used for the refinement comparison with the source objective.) -/
def switches {α : Type} [DecidableEq α] : List α → Nat
  | [] => 0
  | [_] => 0
  | a :: b :: rest => (if a = b then 0 else 1) + switches (b :: rest)

/-- The quadratic objective of the exact formulation, from the source cell
`obj = gp.Sum(i.where[gp.Ord(i) < gp.Card(i)], sqr(X[i] - X[i + 1]))`:
the sum over adjacent pairs of the squared difference of the variable values. -/
def objQuad : List Int → Int
  | [] => 0
  | [_] => 0
  | a :: b :: rest => (a - b) ^ 2 + objQuad (b :: rest)

/-- A binary variable value (0/1) read off a boolean assignment. -/
def boolToInt (b : Bool) : Int := if b then 1 else 0

/-! ### Binary-case greedy heuristic (sequence cell with `colors` sets) -/

/-- State of the binary heuristic loop: the notebook's
`colors = {"white": set(), "black": set()}`, `result`, `changes` and
`current_color`.  Python sets of already-painted types are embedded as lists
(membership is all the loop ever asks of them). -/
structure BState (T : Type) where
  whiteSet : List T
  blackSet : List T
  result : List Color
  changes : Nat
  current : Color

/-- The set of types already painted with color `c` (`colors[color]`). -/
def BState.sets {T : Type} (s : BState T) : Color → List T
  | .white => s.whiteSet
  | .black => s.blackSet

/-- `paint_car(colors, result, color, car_type)` of the binary cell:
add the type to the color's set and append the color to the result. -/
def bPaint {T : Type} (s : BState T) (c : Color) (t : T) : BState T :=
  match c with
  | .white => { s with whiteSet := t :: s.whiteSet, result := s.result ++ [c] }
  | .black => { s with blackSet := t :: s.blackSet, result := s.result ++ [c] }

/-- One iteration of the binary heuristic loop: if the car's type was not yet
painted with the current color, paint it with the current color; otherwise
count one change, flip the color, and paint with the new color. -/
def bStep {T : Type} [DecidableEq T] (s : BState T) (car : T) : BState T :=
  if car ∈ s.sets s.current then
    let s' : BState T := { s with changes := s.changes + 1, current := s.current.flip }
    bPaint s' s'.current car
  else
    bPaint s s.current car

/-- The binary heuristic loop over the remaining sequence. -/
def bGo {T : Type} [DecidableEq T] (s : BState T) : List T → BState T
  | [] => s
  | car :: rest => bGo (bStep s car) rest

/-- Initial state of the binary heuristic: empty sets, empty result, zero
changes, current color white. -/
def bInit {T : Type} : BState T := ⟨[], [], [], 0, .white⟩

/-- The binary Greedy Assignor: run the loop over the whole sequence. -/
def bGreedy {T : Type} [DecidableEq T] (seq : List T) : BState T := bGo bInit seq

/-! ### Multi-demand greedy heuristic (cell with `colors` counter dicts) -/

/-- State of the multi-demand heuristic loop: remaining-capacity counters per
color (the notebook's `colors = {"white": dict(demand_white), "black":
dict(demand_black)}`), plus `result`, `changes`, `current_color`.  The Python
dicts are embedded as total functions on the type alphabet (the loop only
reads and writes keys that occur in the sequence, which the demand mapping is
assumed to cover). -/
structure MState (T : Type) where
  whiteCtr : T → Int
  blackCtr : T → Int
  result : List Color
  changes : Nat
  current : Color

/-- The remaining-capacity counter of color `c` (`colors[color]`). -/
def MState.ctr {T : Type} (s : MState T) : Color → T → Int
  | .white => s.whiteCtr
  | .black => s.blackCtr

/-- Pointwise update of a counter map (`colors_dict[color][car_type] -= 1`
updates one key). -/
def updMap {T : Type} [DecidableEq T] (f : T → Int) (t : T) (v : Int) : T → Int :=
  fun u => if u = t then v else f u

/-- `paint_car(colors, result, color, car_type)` of the multi-demand cell:
decrement the color's counter for the type and append the color. -/
def mPaint {T : Type} [DecidableEq T] (s : MState T) (c : Color) (t : T) : MState T :=
  match c with
  | .white =>
      { s with whiteCtr := updMap s.whiteCtr t (s.whiteCtr t - 1), result := s.result ++ [c] }
  | .black =>
      { s with blackCtr := updMap s.blackCtr t (s.blackCtr t - 1), result := s.result ++ [c] }

/-- One iteration of the multi-demand loop: if the current color still has
positive remaining capacity for the car's type, paint with it; otherwise
count one change, flip, and paint with the new color (the flip branch
decrements the new counter unconditionally, exactly as the source does). -/
def mStep {T : Type} [DecidableEq T] (s : MState T) (car : T) : MState T :=
  if 0 < s.ctr s.current car then
    mPaint s s.current car
  else
    let s' : MState T := { s with changes := s.changes + 1, current := s.current.flip }
    mPaint s' s'.current car

/-- The multi-demand heuristic loop over the remaining sequence. -/
def mGo {T : Type} [DecidableEq T] (s : MState T) : List T → MState T
  | [] => s
  | car :: rest => mGo (mStep s car) rest

/-- Initial state of the multi-demand heuristic: counters initialized from
the white/black demand, empty result, zero changes, current color white. -/
def mInit {T : Type} (dw db : T → Int) : MState T := ⟨dw, db, [], 0, .white⟩

/-- The multi-demand Greedy Assignor. -/
def mGreedy {T : Type} [DecidableEq T] (dw db : T → Int) (seq : List T) : MState T :=
  mGo (mInit dw db) seq

/-! ### Counting colored occurrences, demand feasibility, exhaustive optimum -/

/-- Occurrences of type `t` in a sequence (`sequence.count(t)`). -/
def occCount {T : Type} [DecidableEq T] (t : T) (l : List T) : Nat :=
  l.countP (fun u => decide (u = t))

/-- Number of positions of type `t` that a coloring paints with color `c`
(positions are matched pairwise via `zip`). -/
def countTC {T : Type} [DecidableEq T] (seq : List T) (res : List Color) (t : T) (c : Color) :
    Nat :=
  (seq.zip res).countP (fun p => decide (p.1 = t) && decide (p.2 = c))

/-- Demand feasibility of a coloring under the implicit binary demand (one
white and one black car per type). -/
def feasibleBin {T : Type} [DecidableEq T] (seq : List T) (res : List Color) : Bool :=
  (res.length == seq.length) &&
    seq.dedup.all (fun t =>
      (countTC seq res t .white == 1) && (countTC seq res t .black == 1))

/-- All colorings of a given length (exhaustive search space). -/
def allColorings : Nat → List (List Color)
  | 0 => [[]]
  | n + 1 => (allColorings n).flatMap (fun c => [Color.white :: c, Color.black :: c])

/-- Minimum of a list of naturals, `none` on the empty list. -/
def minNat : List Nat → Option Nat
  | [] => none
  | a :: rest =>
      match minNat rest with
      | none => some a
      | some b => some (min a b)

/-- The minimum switch count over all demand-feasible colorings of a sequence
under the implicit binary demand (exhaustive search). -/
def minSwitches {T : Type} [DecidableEq T] (seq : List T) : Option Nat :=
  minNat (((allColorings seq.length).filter (feasibleBin seq)).map switches)

/-! ### Concrete data from the notebook -/

/-- The notebook's binary-case example sequence
`sequence = ["A", "D", "E", "B", "A", "F", "C", "B", "C", "D", "E", "F"]`. -/
def seqEx : List String := ["A", "D", "E", "B", "A", "F", "C", "B", "C", "D", "E", "F"]

/-! ### Demand validation (spec 4.1; absent from the source) -/

/-- The demand-model error kinds named by the spec (section 7). -/
inductive DemandError : Type
  | Infeasible : DemandError
  | ExhaustedCapacity : DemandError
  deriving DecidableEq, Repr

/-- Modelled from the spec: `validate(instance, demand)` of the Demand Model
(spec 4.1).  The source notebook contains no validation code (it only ever
constructs feasible demands via `random.randint(0, sequence.count(t))`), so
this follows the spec's words: fail with `DemandError::Infeasible` when a
type's requested black-count is negative or exceeds its occurrence count, or
when a type present in the demand is absent from the instance (or vice
versa); otherwise return the validated demand.  The demand is a finite
mapping, embedded as an association list from type to black-count. -/
def validate {T : Type} [DecidableEq T] (seq : List T) (demand : List (T × Int)) :
    Except DemandError (List (T × Int)) :=
  if demand.all (fun p =>
        decide (0 ≤ p.2) && decide (p.2 ≤ (occCount p.1 seq : Int)) && decide (p.1 ∈ seq))
      && seq.all (fun t => decide (t ∈ demand.map Prod.fst)) then
    .ok demand
  else
    .error .Infeasible

/-! ### Exact formulation builder (notebook cells building `IJ`, `BlackOnce` /
`MeetBlackDemand` and `obj`) -/

/-- The declarative structure emitted by the exact-formulation cells: the
`IJ` set records `[(i + 1, sequence[i]) ...]` pairing 1-based positions with
their types, and one equality constraint per type `j` equating the sum of the
binary variables at the positions of `j` with the required black count
(`1` in the binary cell, `black_demand[j]` in the multi-demand cell).
The objective is the shared expression `objQuad`. -/
structure ExactForm (T : Type) where
  records : List (Nat × T)
  constraints : List (T × Int)
  deriving DecidableEq, Repr

/-- The exact-formulation builder: `IJ` records from the sequence and one
per-type constraint with the type's black demand as right-hand side. -/
def buildForm {T : Type} [DecidableEq T] (seq : List T) (db : T → Int) : ExactForm T :=
  { records := seq.enum.map (fun p => (p.1 + 1, p.2)),
    constraints := seq.dedup.map (fun t => (t, db t)) }

/-! ### QUBO coefficient serialisation (notebook cell with `np.triu_indices`) -/

/-- The upper-triangular index pairs (diagonal included) of an `n × n`
matrix in row-major order, as produced by `np.triu_indices(n)`:
row `r` contributes `(r, r), (r, r+1), ..., (r, n-1)`. -/
def triuIndices (n : Nat) : List (Nat × Nat) :=
  (List.range n).flatMap (fun r => (List.range (n - r)).map (fun k => (r, r + k)))

/-- A key of the serialised QUBO coefficient map: `lin i` embeds the source's
`f"({r},)"` single-index key and `quad i j` embeds `f"({r},{c})"`. -/
inductive QKey : Type
  | lin : Nat → QKey
  | quad : Nat → Nat → QKey
  deriving DecidableEq, Repr

/-- The key the source's loop writes for an upper-triangular index pair:
a linear key on the diagonal, a quadratic key off it. -/
def keyOf (rc : Nat × Nat) : QKey :=
  if rc.1 = rc.2 then QKey.lin rc.1 else QKey.quad rc.1 rc.2

/-- The `final_qubo` dictionary built by the source over a symmetric `n × n`
coefficient matrix `M`: one entry per upper-triangular index pair, keyed by
`keyOf` and holding the matrix coefficient.  The keys are pairwise distinct
strings in the source, so the dict is faithfully an association list. -/
def finalQubo (n : Nat) (M : Nat → Nat → ℚ) : List (QKey × ℚ) :=
  (triuIndices n).map (fun rc => (keyOf rc, M rc.1 rc.2))

/-! ## Supporting lemmas -/

/-- The switch contributed by appending one color after a list: none if the
list is empty or ends in the same color, one otherwise. -/
def lastSwitch {α : Type} [DecidableEq α] (l : List α) (c : α) : Nat :=
  match l.getLast? with
  | none => 0
  | some d => if d = c then 0 else 1

theorem switches_concat {α : Type} [DecidableEq α] (l : List α) (c : α) :
    switches (l ++ [c]) = switches l + lastSwitch l c := by
  induction l with
  | nil => rfl
  | cons a tl ih =>
    cases tl with
    | nil =>
      simp only [List.cons_append, List.nil_append, switches, lastSwitch, List.getLast?_singleton]
      omega
    | cons b rest =>
      have hgl : (a :: b :: rest).getLast? = (b :: rest).getLast? := by
        simp [List.getLast?_cons_cons]
      calc switches ((a :: b :: rest) ++ [c])
          = (if a = b then 0 else 1) + switches ((b :: rest) ++ [c]) := rfl
        _ = (if a = b then 0 else 1) + (switches (b :: rest) + lastSwitch (b :: rest) c) := by
            rw [ih]
        _ = switches (a :: b :: rest) + lastSwitch (a :: b :: rest) c := by
            simp only [switches, lastSwitch, hgl]; omega

theorem flip_ne (c : Color) : c.flip ≠ c := by cases c <;> simp [Color.flip]

theorem mStep_changes {T : Type} [DecidableEq T] (s : MState T) (car : T)
    (h : s.result.getLast? = some s.current) :
    (mStep s car).changes + switches s.result = s.changes + switches (mStep s car).result ∧
      (mStep s car).result.getLast? = some (mStep s car).current := by
  obtain ⟨w, b, res, ch, cur⟩ := s
  simp only [mStep]
  split
  · cases cur <;>
      ( simp only [mPaint, switches_concat, List.getLast?_concat]
        refine ⟨?_, trivial⟩
        simp only [lastSwitch]
        rw [h]
        simp only [reduceIte]
        omega )
  · cases cur <;>
      ( simp only [mPaint, Color.flip, switches_concat, List.getLast?_concat]
        refine ⟨?_, trivial⟩
        simp only [lastSwitch]
        rw [h]
        simp only [reduceCtorEq, reduceIte]
        omega )

theorem mGo_changes {T : Type} [DecidableEq T] (rest : List T) (s : MState T)
    (h : s.result.getLast? = some s.current) :
    (mGo s rest).changes + switches s.result = s.changes + switches (mGo s rest).result ∧
      (mGo s rest).result.getLast? = some (mGo s rest).current := by
  induction rest generalizing s with
  | nil => exact ⟨rfl, h⟩
  | cons car rest ih =>
    obtain ⟨h1, h2⟩ := mStep_changes s car h
    obtain ⟨h3, h4⟩ := ih (mStep s car) h2
    simp only [mGo]
    exact ⟨by omega, h4⟩

/-! ## Claims -/

/-- C4: for every binary assignment, the Exact Formulation's quadratic
objective value (sum of squared differences of adjacent variables) equals
the Switch-Count Evaluator's result (count of adjacent differing pairs). -/
theorem exact_objective_eq_switch_count (xs : List Bool) :
    objQuad (xs.map boolToInt) = (switches xs : Int) := by
  induction xs with
  | nil => rfl
  | cons a tl ih =>
    cases tl with
    | nil => rfl
    | cons b rest =>
      have hstep : objQuad ((a :: b :: rest).map boolToInt) =
          (boolToInt a - boolToInt b) ^ 2 + objQuad ((b :: rest).map boolToInt) := rfl
      rw [hstep, ih]
      have hsw : switches (a :: b :: rest) = (if a = b then 0 else 1) + switches (b :: rest) :=
        rfl
      rw [hsw]
      cases a <;> cases b <;> simp [boolToInt]

/-- C8 counterexample: on the empty sequence the source's formulation cells
produce an empty structure (no records, no constraints) and the QUBO
serialisation of the 0-by-0 matrix is the empty coefficient map; neither
path signals any error. -/
theorem empty_instance_counterexample :
    buildForm ([] : List String) (fun _ => 1) = ⟨[], []⟩ ∧
      finalQubo 0 (fun _ _ => 0) = [] :=
  ⟨rfl, rfl⟩

/-- C8 amended: the source performs no emptiness check; for the empty
sequence the Exact Formulation Builder returns the empty formulation (no
records, no constraints, zero objective) and the QUBO serialisation returns
the empty coefficient map, with no failure on either path. -/
theorem empty_instance_builds_empty {T : Type} [DecidableEq T] (db : T → Int)
    (M : Nat → Nat → ℚ) :
    buildForm ([] : List T) db = ⟨[], []⟩ ∧ finalQubo 0 M = [] ∧ objQuad [] = 0 :=
  ⟨rfl, rfl, rfl⟩

/-- C5 amended: the change counter of the multi-demand greedy pass equals
the Switch-Count Evaluator applied to the returned coloring, plus one extra
count exactly when the very first position already forces a flip (the white
capacity of the first type is not positive); in particular the two agree
whenever the first position is painted without flipping. -/
theorem greedy_changes_eq_switches {T : Type} [DecidableEq T] (dw db : T → Int)
    (car : T) (rest : List T) :
    (mGreedy dw db (car :: rest)).changes =
      switches (mGreedy dw db (car :: rest)).result + (if 0 < dw car then 0 else 1) := by
  have hrun : mGreedy dw db (car :: rest) = mGo (mStep (mInit dw db) car) rest := rfl
  by_cases hd : 0 < dw car
  · have hstep : mStep (mInit dw db) car =
        ⟨updMap dw car (dw car - 1), db, [Color.white], 0, .white⟩ := by
      simp [mStep, mInit, MState.ctr, hd, mPaint]
    obtain ⟨h1, _⟩ := mGo_changes rest (mStep (mInit dw db) car)
      (by rw [hstep]; rfl)
    rw [hrun, if_pos hd]
    rw [hstep] at h1 ⊢
    simpa [switches] using h1
  · have hstep : mStep (mInit dw db) car =
        ⟨dw, updMap db car (db car - 1), [Color.black], 1, .black⟩ := by
      simp [mStep, mInit, MState.ctr, hd, mPaint, Color.flip]
    obtain ⟨h1, _⟩ := mGo_changes rest (mStep (mInit dw db) car)
      (by rw [hstep]; rfl)
    rw [hrun, if_neg hd]
    rw [hstep] at h1 ⊢
    simp only [switches] at h1 ⊢
    omega

/-- The white demand of the C5 counterexample: zero white capacity for the
single type of the one-car sequence. -/
def dwEx1 : String → Int := fun _ => 0

/-- The black demand of the C5 counterexample: one black car of type A. -/
def dbEx1 : String → Int := fun t => if t = "A" then 1 else 0

/-- C5 counterexample: on the feasible one-car instance with zero white and
one black demand for its type, the greedy flips before the first paint, so
its change counter is 1 while the returned coloring has 0 switches. -/
theorem greedy_changes_counterexample :
    (mGreedy dwEx1 dbEx1 ["A"]).changes = 1 ∧
      switches (mGreedy dwEx1 dbEx1 ["A"]).result = 0 ∧
      (mGreedy dwEx1 dbEx1 ["A"]).changes ≠ switches (mGreedy dwEx1 dbEx1 ["A"]).result ∧
      dwEx1 "A" = 0 ∧ dbEx1 "A" = 1 ∧ occCount "A" ["A"] = 1 := by
  decide

theorem mem_triuIndices {n r c : Nat} : (r, c) ∈ triuIndices n ↔ r ≤ c ∧ c < n := by
  simp only [triuIndices, List.mem_flatMap, List.mem_map, List.mem_range]
  constructor
  · rintro ⟨r', hr', k, hk, heq⟩
    injection heq with h1 h2
    omega
  · rintro ⟨hle, hlt⟩
    refine ⟨r, by omega, c - r, by omega, ?_⟩
    have : r + (c - r) = c := by omega
    rw [this]

theorem nodup_triuIndices (n : Nat) : (triuIndices n).Nodup := by
  rw [triuIndices, List.nodup_flatMap]
  constructor
  · intro r _
    exact (List.nodup_range _).map fun k₁ k₂ h => by injection h with h1 h2; omega
  · have hlt := List.pairwise_lt_range (n := n)
    refine hlt.imp ?_
    intro a b hab x hx1 hx2
    simp only [List.mem_map, List.mem_range] at hx1 hx2
    obtain ⟨k1, _, rfl⟩ := hx1
    obtain ⟨k2, _, heq⟩ := hx2
    injection heq with h1 h2
    omega

theorem keyOf_mem_inj (n : Nat) :
    ∀ x ∈ triuIndices n, ∀ y ∈ triuIndices n, keyOf x = keyOf y → x = y := by
  rintro ⟨x1, x2⟩ hx ⟨y1, y2⟩ hy hk
  rw [mem_triuIndices] at hx hy
  simp only [keyOf] at hk
  split at hk <;> split at hk <;> simp_all

/-- C9: every key of the serialised QUBO coefficient map is either a linear
key `(i)` with `i < n` or a quadratic key `(i, j)` with `i < j < n` (so no
key with `i > j` ever occurs), the keys are pairwise distinct, and every
diagonal or strictly-upper-triangular index of the matrix contributes
exactly one key. -/
theorem qubo_keys_upper_triangular (n : Nat) (M : Nat → Nat → ℚ) :
    ((finalQubo n M).map Prod.fst).Nodup ∧
      ∀ k, k ∈ (finalQubo n M).map Prod.fst ↔
        ((∃ i, i < n ∧ k = QKey.lin i) ∨ ∃ i j, i < j ∧ j < n ∧ k = QKey.quad i j) := by
  have hmap : (finalQubo n M).map Prod.fst = (triuIndices n).map keyOf := by
    simp [finalQubo, List.map_map, Function.comp]
  rw [hmap]
  constructor
  · exact List.Nodup.map_on (keyOf_mem_inj n) (nodup_triuIndices n)
  · intro k
    simp only [List.mem_map]
    constructor
    · rintro ⟨⟨r, c⟩, hrc, rfl⟩
      rw [mem_triuIndices] at hrc
      by_cases hd : r = c
      · exact Or.inl ⟨r, by omega, by simp [keyOf, hd]⟩
      · refine Or.inr ⟨r, c, ?_, hrc.2, by simp [keyOf, hd]⟩
        omega
    · rintro (⟨i, hi, rfl⟩ | ⟨i, j, hij, hj, rfl⟩)
      · exact ⟨(i, i), mem_triuIndices.2 ⟨Nat.le_refl i, hi⟩, by simp [keyOf]⟩
      · refine ⟨(i, j), mem_triuIndices.2 ⟨by omega, hj⟩, ?_⟩
        have : i ≠ j := by omega
        simp [keyOf, this]

/-- Witness for C9 at a concrete size and matrix. -/
theorem qubo_keys_upper_triangular_witness :
    ((finalQubo 3 (fun _ _ => (0 : ℚ))).map Prod.fst).Nodup :=
  (qubo_keys_upper_triangular 3 (fun _ _ => (0 : ℚ))).1

/-- C7: the spec-modelled validator fails with `DemandError::Infeasible`
exactly when some requested black-count is negative or exceeds the type's
occurrence count, or the type sets of demand and instance differ; on the
concrete instance `[A, A, A]` with demand `A ↦ 4` it returns
`DemandError::Infeasible`. -/
theorem validate_infeasible_iff {T : Type} [DecidableEq T] :
    (∀ (seq : List T) (demand : List (T × Int)),
        validate seq demand = .error .Infeasible ↔
          ((∃ p ∈ demand, p.2 < 0 ∨ (occCount p.1 seq : Int) < p.2 ∨ p.1 ∉ seq) ∨
            ∃ t ∈ seq, t ∉ demand.map Prod.fst)) ∧
      validate ["A", "A", "A"] [("A", 4)] = .error .Infeasible := by
  constructor
  · intro seq demand
    have hiff :
        ((∃ p ∈ demand, p.2 < 0 ∨ (occCount p.1 seq : Int) < p.2 ∨ p.1 ∉ seq) ∨
            ∃ t ∈ seq, t ∉ demand.map Prod.fst) ↔
          ¬ ((∀ p ∈ demand, 0 ≤ p.2 ∧ p.2 ≤ (occCount p.1 seq : Int) ∧ p.1 ∈ seq) ∧
              ∀ t ∈ seq, t ∈ demand.map Prod.fst) := by
      constructor
      · rintro (⟨p, hp, hbad⟩ | ⟨t, ht, hbad⟩) ⟨h1, h2⟩
        · rcases hbad with h | h | h
          · have := (h1 p hp).1; omega
          · have := (h1 p hp).2.1; omega
          · exact h (h1 p hp).2.2
        · exact hbad (h2 t ht)
      · intro hneg
        by_contra hcon
        push_neg at hcon
        exact hneg ⟨fun p hp => ⟨(hcon.1 p hp).1, (hcon.1 p hp).2.1, (hcon.1 p hp).2.2⟩, hcon.2⟩
    rw [hiff]
    unfold validate
    split
    next hcond =>
      simp only [Bool.and_eq_true, List.all_eq_true, decide_eq_true_eq] at hcond
      refine iff_of_false (by simp) fun hneg => hneg ⟨fun p hp => ?_, hcond.2⟩
      have := hcond.1 p hp
      exact ⟨this.1.1, this.1.2, this.2⟩
    next hcond =>
      refine iff_of_true rfl fun hP => hcond ?_
      simp only [Bool.and_eq_true, List.all_eq_true, decide_eq_true_eq]
      exact ⟨fun p hp => ⟨⟨(hP.1 p hp).1, (hP.1 p hp).2.1⟩, (hP.1 p hp).2.2⟩, hP.2⟩
  · rfl

/-- Witness for C7 on a feasible and an infeasible concrete demand. -/
theorem validate_infeasible_iff_witness :
    validate ["A", "A", "A"] [("A", 4)] = .error .Infeasible :=
  (validate_infeasible_iff (T := String)).2

/-! ## Counting lemmas -/

theorem occCount_nil {T : Type} [DecidableEq T] (t : T) : occCount t [] = 0 := rfl

theorem occCount_cons {T : Type} [DecidableEq T] (t u : T) (l : List T) :
    occCount t (u :: l) = occCount t l + (if u = t then 1 else 0) := by
  simp only [occCount, List.countP_cons]
  split <;> simp_all

theorem occCount_append {T : Type} [DecidableEq T] (t : T) (l₁ l₂ : List T) :
    occCount t (l₁ ++ l₂) = occCount t l₁ + occCount t l₂ := by
  simp [occCount, List.countP_append]

theorem countTC_nil {T : Type} [DecidableEq T] (res : List Color) (t : T) (c : Color) :
    countTC [] res t c = 0 := rfl

theorem countTC_concat {T : Type} [DecidableEq T] {seq : List T} {res : List Color}
    (h : seq.length = res.length) (u : T) (c' : Color) (t : T) (c : Color) :
    countTC (seq ++ [u]) (res ++ [c']) t c =
      countTC seq res t c + (if u = t ∧ c' = c then 1 else 0) := by
  unfold countTC
  rw [List.zip_append h, List.countP_append]
  simp [List.countP_cons, List.countP_nil]

theorem countTC_cons {T : Type} [DecidableEq T] (a : T) (c : Color) (seq : List T)
    (res : List Color) (t : T) (col : Color) :
    countTC (a :: seq) (c :: res) t col =
      countTC seq res t col + (if a = t ∧ c = col then 1 else 0) := by
  simp only [countTC, List.zip_cons_cons, List.countP_cons, Bool.and_eq_true,
    decide_eq_true_eq]

theorem countTC_split {T : Type} [DecidableEq T] (t : T) :
    ∀ (seq : List T) (res : List Color), seq.length = res.length →
      countTC seq res t .white + countTC seq res t .black = occCount t seq := by
  intro seq
  induction seq with
  | nil => intro res _; rfl
  | cons a seq ih =>
    intro res hlen
    cases res with
    | nil => simp at hlen
    | cons c res =>
      have hlen' : seq.length = res.length := by simpa using hlen
      rw [countTC_cons, countTC_cons, occCount_cons, ← ih res hlen']
      cases c <;> by_cases hat : a = t <;> simp [hat] <;> omega

/-! ## Demand conservation of the multi-demand greedy pass -/

/-- Loop invariant of the multi-demand greedy pass, relating the processed
prefix `p` (with its painted result) and the remaining suffix `rest`: both
counters are nonnegative, for each type they jointly count its remaining
occurrences, and painted-so-far plus remaining capacity equals the demand. -/
def MInv {T : Type} [DecidableEq T] (dw db : T → Int) (p rest : List T) (s : MState T) :
    Prop :=
  p.length = s.result.length ∧
    ∀ t, 0 ≤ s.whiteCtr t ∧ 0 ≤ s.blackCtr t ∧
      s.whiteCtr t + s.blackCtr t = (occCount t rest : Int) ∧
      (countTC p s.result t .white : Int) + s.whiteCtr t = dw t ∧
      (countTC p s.result t .black : Int) + s.blackCtr t = db t

theorem mStep_inv {T : Type} [DecidableEq T] {dw db : T → Int} {p rest : List T} {car : T}
    {s : MState T} (h : MInv dw db p (car :: rest) s) :
    MInv dw db (p ++ [car]) rest (mStep s car) := by
  obtain ⟨w, b, res, ch, cur⟩ := s
  obtain ⟨hlen, hctr⟩ := h
  replace hlen : p.length = res.length := hlen
  cases cur with
  | white =>
    by_cases hpos : 0 < w car
    · have hstep : mStep (⟨w, b, res, ch, .white⟩ : MState T) car =
          ⟨updMap w car (w car - 1), b, res ++ [.white], ch, .white⟩ := by
        simp [mStep, MState.ctr, hpos, mPaint]
      rw [hstep]
      refine ⟨by simp [hlen], fun t => ?_⟩
      obtain ⟨hw, hb, hsum, hpw, hpb⟩ := hctr t
      replace hw : 0 ≤ w t := hw
      replace hb : 0 ≤ b t := hb
      replace hsum : w t + b t = (occCount t (car :: rest) : Int) := hsum
      replace hpw : (countTC p res t .white : Int) + w t = dw t := hpw
      replace hpb : (countTC p res t .black : Int) + b t = db t := hpb
      rw [occCount_cons] at hsum
      by_cases htc : t = car
      · subst htc
        simp [countTC_concat hlen, updMap] at hsum ⊢
        omega
      · have htc' : ¬(car = t) := fun hh => htc hh.symm
        simp [countTC_concat hlen, updMap, htc, htc'] at hsum ⊢
        omega
    · have hstep : mStep (⟨w, b, res, ch, .white⟩ : MState T) car =
          ⟨w, updMap b car (b car - 1), res ++ [.black], ch + 1, .black⟩ := by
        simp [mStep, MState.ctr, hpos, mPaint, Color.flip]
      rw [hstep]
      refine ⟨by simp [hlen], fun t => ?_⟩
      obtain ⟨hw, hb, hsum, hpw, hpb⟩ := hctr t
      replace hw : 0 ≤ w t := hw
      replace hb : 0 ≤ b t := hb
      replace hsum : w t + b t = (occCount t (car :: rest) : Int) := hsum
      replace hpw : (countTC p res t .white : Int) + w t = dw t := hpw
      replace hpb : (countTC p res t .black : Int) + b t = db t := hpb
      rw [occCount_cons] at hsum
      have hwcar : 0 ≤ w car := (hctr car).1
      by_cases htc : t = car
      · subst htc
        simp [countTC_concat hlen, updMap] at hsum ⊢
        omega
      · have htc' : ¬(car = t) := fun hh => htc hh.symm
        simp [countTC_concat hlen, updMap, htc, htc'] at hsum ⊢
        omega
  | black =>
    by_cases hpos : 0 < b car
    · have hstep : mStep (⟨w, b, res, ch, .black⟩ : MState T) car =
          ⟨w, updMap b car (b car - 1), res ++ [.black], ch, .black⟩ := by
        simp [mStep, MState.ctr, hpos, mPaint]
      rw [hstep]
      refine ⟨by simp [hlen], fun t => ?_⟩
      obtain ⟨hw, hb, hsum, hpw, hpb⟩ := hctr t
      replace hw : 0 ≤ w t := hw
      replace hb : 0 ≤ b t := hb
      replace hsum : w t + b t = (occCount t (car :: rest) : Int) := hsum
      replace hpw : (countTC p res t .white : Int) + w t = dw t := hpw
      replace hpb : (countTC p res t .black : Int) + b t = db t := hpb
      rw [occCount_cons] at hsum
      by_cases htc : t = car
      · subst htc
        simp [countTC_concat hlen, updMap] at hsum ⊢
        omega
      · have htc' : ¬(car = t) := fun hh => htc hh.symm
        simp [countTC_concat hlen, updMap, htc, htc'] at hsum ⊢
        omega
    · have hstep : mStep (⟨w, b, res, ch, .black⟩ : MState T) car =
          ⟨updMap w car (w car - 1), b, res ++ [.white], ch + 1, .white⟩ := by
        simp [mStep, MState.ctr, hpos, mPaint, Color.flip]
      rw [hstep]
      refine ⟨by simp [hlen], fun t => ?_⟩
      obtain ⟨hw, hb, hsum, hpw, hpb⟩ := hctr t
      replace hw : 0 ≤ w t := hw
      replace hb : 0 ≤ b t := hb
      replace hsum : w t + b t = (occCount t (car :: rest) : Int) := hsum
      replace hpw : (countTC p res t .white : Int) + w t = dw t := hpw
      replace hpb : (countTC p res t .black : Int) + b t = db t := hpb
      rw [occCount_cons] at hsum
      have hbcar : 0 ≤ b car := (hctr car).2.1
      by_cases htc : t = car
      · subst htc
        simp [countTC_concat hlen, updMap] at hsum ⊢
        omega
      · have htc' : ¬(car = t) := fun hh => htc hh.symm
        simp [countTC_concat hlen, updMap, htc, htc'] at hsum ⊢
        omega

theorem mGo_inv {T : Type} [DecidableEq T] {dw db : T → Int} :
    ∀ (rest p : List T) (s : MState T), MInv dw db p rest s →
      MInv dw db (p ++ rest) [] (mGo s rest) := by
  intro rest
  induction rest with
  | nil => intro p s h; simpa [mGo] using h
  | cons car rest ih =>
    intro p s h
    have hstep := mStep_inv h
    have := ih (p ++ [car]) (mStep s car) hstep
    simpa [mGo, List.append_assoc] using this

/-- C3: for every instance and every feasible demand (each type's black
count between 0 and its occurrence count, white count the complement), the
multi-demand Greedy Assignor paints, for every type, exactly the demanded
number of positions black and the remaining occurrences white. -/
theorem greedy_meets_demand {T : Type} [DecidableEq T] (seq : List T) (dw db : T → Int)
    (hfeas : ∀ t, 0 ≤ db t ∧ db t ≤ (occCount t seq : Int) ∧
      dw t = (occCount t seq : Int) - db t) :
    ∀ t, (countTC seq (mGreedy dw db seq).result t .black : Int) = db t ∧
      (countTC seq (mGreedy dw db seq).result t .white : Int) = dw t := by
  have h0 : MInv dw db [] seq (mInit dw db) := by
    refine ⟨rfl, fun t => ?_⟩
    obtain ⟨h1, h2, h3⟩ := hfeas t
    simp only [mInit, countTC_nil]
    refine ⟨by omega, h1, by omega, by omega, by omega⟩
  have h1 := mGo_inv seq [] (mInit dw db) h0
  obtain ⟨hlen, hctr⟩ := h1
  intro t
  obtain ⟨hw, hb, hsum, hpw, hpb⟩ := hctr t
  rw [occCount_nil] at hsum
  simp only [List.nil_append] at hpw hpb
  simp only [mGreedy]
  constructor <;> omega

/-- Demand functions for the concrete C3 witness: one white and two black
cars of type A on the three-car sequence. -/
def dwW : String → Int := fun t => if t = "A" then 1 else 0

/-- Black demand of the concrete C3 witness. -/
def dbW : String → Int := fun t => if t = "A" then 2 else 0

/-- The three-car sequence `[A, A, A]` used by the concrete scenarios. -/
def seq3 : List String := ["A", "A", "A"]

/-- Witness for C3 on the three-car instance with demand one white / two
black. -/
theorem greedy_meets_demand_witness :
    (countTC seq3 (mGreedy dwW dbW seq3).result "A" .black : Int) = dbW "A" ∧
      (countTC seq3 (mGreedy dwW dbW seq3).result "A" .white : Int) = dwW "A" :=
  greedy_meets_demand seq3 dwW dbW
    (by
      intro t
      by_cases h : t = "A"
      · subst h; refine ⟨by norm_num [dbW], ?_, ?_⟩ <;> decide
      · have h0 : occCount t seq3 = 0 := by
          have h' : ("A" : String) ≠ t := fun he => h he.symm
          simp [seq3, occCount_cons, occCount_nil, h']
        simp [dwW, dbW, h, h0])
    "A"

/-! ## Totality of the multi-demand pass and behavior on exhausted capacity -/

theorem mStep_result_length {T : Type} [DecidableEq T] (s : MState T) (car : T) :
    (mStep s car).result.length = s.result.length + 1 := by
  obtain ⟨w, b, res, ch, cur⟩ := s
  simp only [mStep]
  split <;> cases cur <;> simp [mPaint, Color.flip]

theorem mGo_result_length {T : Type} [DecidableEq T] :
    ∀ (rest : List T) (s : MState T),
      (mGo s rest).result.length = s.result.length + rest.length := by
  intro rest
  induction rest with
  | nil => intro s; simp [mGo]
  | cons car rest ih =>
    intro s
    simp only [mGo]
    rw [ih (mStep s car), mStep_result_length]
    simp
    omega

/-- The white demand of the infeasible concrete scenario: one white car of
type A on the three-car sequence (so white and black demand sum to 2 < 3). -/
def dwInf : String → Int := fun t => if t = "A" then 1 else 0

/-- The black demand of the infeasible concrete scenario. -/
def dbInf : String → Int := fun t => if t = "A" then 1 else 0

/-- C10: the multi-demand greedy pass is total — it appends exactly one
color per position and never signals an error — and on the concrete
infeasible instance `[A, A, A]` with demand one white / one black it still
returns a full-length coloring, driving the white counter to `-1` and
painting two positions white although only one was demanded. -/
theorem multi_greedy_total :
    (∀ (T : Type) (inst : DecidableEq T) (dw db : T → Int) (seq : List T),
        (@mGreedy T inst dw db seq).result.length = seq.length) ∧
      (mGreedy dwInf dbInf seq3).result.length = 3 ∧
      (mGreedy dwInf dbInf seq3).whiteCtr "A" = -1 ∧
      (countTC seq3 (mGreedy dwInf dbInf seq3).result "A" .white : Int) ≠ dwInf "A" := by
  refine ⟨fun T inst dw db seq => ?_, by decide, by decide, by decide⟩
  show (mGo (mInit dw db) seq).result.length = seq.length
  rw [mGo_result_length]
  simp [mInit]

/-- C6 counterexample: on `[A, A, A]` with demand one white / one black for
type A, after the first two cars both remaining-capacity counters for A are
zero; at the third car the greedy nevertheless continues — it flips, paints
the car, finishes with a three-entry coloring and two recorded changes, and
no error of any kind is raised (the loop has no failure path). -/
theorem exhausted_capacity_counterexample :
    (mGo (mInit dwInf dbInf) ["A", "A"]).ctr
        (mGo (mInit dwInf dbInf) ["A", "A"]).current "A" = 0 ∧
      (mGo (mInit dwInf dbInf) ["A", "A"]).ctr
        (mGo (mInit dwInf dbInf) ["A", "A"]).current.flip "A" = 0 ∧
      (mGreedy dwInf dbInf seq3).result = [Color.white, Color.black, Color.white] ∧
      (mGreedy dwInf dbInf seq3).changes = 2 := by
  refine ⟨by decide, by decide, by decide, by decide⟩

/-- C6 amended: when the current color has zero remaining capacity for the
current type and the flipped color's remaining capacity is also zero, the
greedy does not fail: it flips, paints the position with the new color and
decrements that color's counter to `-1`, then continues the pass. -/
theorem exhausted_capacity_continues {T : Type} [DecidableEq T] (s : MState T) (car : T)
    (h1 : s.ctr s.current car = 0) (h2 : s.ctr s.current.flip car = 0) :
    (mStep s car).result = s.result ++ [s.current.flip] ∧
      (mStep s car).ctr s.current.flip car = -1 ∧
      (mStep s car).changes = s.changes + 1 := by
  obtain ⟨w, b, res, ch, cur⟩ := s
  cases cur <;>
    ( simp only [MState.ctr, Color.flip] at h1 h2 ⊢
      simp [mStep, MState.ctr, mPaint, Color.flip, h1, h2, updMap] )

/-- A concrete state with both capacities exhausted, for the C6 witness. -/
def sExhausted : MState String := ⟨fun _ => 0, fun _ => 0, [], 0, .white⟩

/-- Witness for the amended C6 at a concrete exhausted state. -/
theorem exhausted_capacity_continues_witness :
    (mStep sExhausted "A").result = sExhausted.result ++ [sExhausted.current.flip] ∧
      (mStep sExhausted "A").ctr sExhausted.current.flip "A" = -1 ∧
      (mStep sExhausted "A").changes = sExhausted.changes + 1 :=
  exhausted_capacity_continues sExhausted "A" rfl rfl

/-! ## Feasibility of the binary greedy pass -/

/-- Loop invariant of the binary greedy pass: the painted result is aligned
with the processed prefix, and for each color the set of painted types
records exactly the types painted once with that color. -/
def BInv {T : Type} [DecidableEq T] (p : List T) (s : BState T) : Prop :=
  p.length = s.result.length ∧
    ∀ t, countTC p s.result t .white = (if t ∈ s.whiteSet then 1 else 0) ∧
      countTC p s.result t .black = (if t ∈ s.blackSet then 1 else 0)

theorem bStep_inv {T : Type} [DecidableEq T] {p : List T} {car : T} {s : BState T}
    (h : BInv p s) (hle : occCount car p ≤ 1) : BInv (p ++ [car]) (bStep s car) := by
  obtain ⟨wset, bset, res, ch, cur⟩ := s
  obtain ⟨hlen, hctr⟩ := h
  replace hlen : p.length = res.length := hlen
  have hsplit := countTC_split car p res hlen
  cases cur with
  | white =>
    by_cases hmem : car ∈ wset
    · have hstep : bStep (⟨wset, bset, res, ch, .white⟩ : BState T) car =
          ⟨wset, car :: bset, res ++ [.black], ch + 1, .black⟩ := by
        simp [bStep, BState.sets, hmem, bPaint, Color.flip]
      rw [hstep]
      have hcw : countTC p res car .white = 1 := by
        have := (hctr car).1; rwa [if_pos hmem] at this
      have hcb : countTC p res car .black = 0 := by omega
      refine ⟨by simp [hlen], fun t => ?_⟩
      obtain ⟨hw, hb⟩ := hctr t
      replace hw : countTC p res t .white = (if t ∈ wset then 1 else 0) := hw
      replace hb : countTC p res t .black = (if t ∈ bset then 1 else 0) := hb
      by_cases htc : t = car
      · subst htc
        constructor
        · simp [countTC_concat hlen, hw]
        · simp [countTC_concat hlen, hcb]
      · have htc' : ¬(car = t) := fun hh => htc hh.symm
        constructor
        · simp [countTC_concat hlen, htc', hw]
        · simp [countTC_concat hlen, htc', htc, hb]
    · have hstep : bStep (⟨wset, bset, res, ch, .white⟩ : BState T) car =
          ⟨car :: wset, bset, res ++ [.white], ch, .white⟩ := by
        simp [bStep, BState.sets, hmem, bPaint]
      rw [hstep]
      have hcw : countTC p res car .white = 0 := by
        have := (hctr car).1; rwa [if_neg hmem] at this
      refine ⟨by simp [hlen], fun t => ?_⟩
      obtain ⟨hw, hb⟩ := hctr t
      replace hw : countTC p res t .white = (if t ∈ wset then 1 else 0) := hw
      replace hb : countTC p res t .black = (if t ∈ bset then 1 else 0) := hb
      by_cases htc : t = car
      · subst htc
        constructor
        · simp [countTC_concat hlen, hcw]
        · simp [countTC_concat hlen, hb]
      · have htc' : ¬(car = t) := fun hh => htc hh.symm
        constructor
        · simp [countTC_concat hlen, htc', htc, hw]
        · simp [countTC_concat hlen, htc', hb]
  | black =>
    by_cases hmem : car ∈ bset
    · have hstep : bStep (⟨wset, bset, res, ch, .black⟩ : BState T) car =
          ⟨car :: wset, bset, res ++ [.white], ch + 1, .white⟩ := by
        simp [bStep, BState.sets, hmem, bPaint, Color.flip]
      rw [hstep]
      have hcb : countTC p res car .black = 1 := by
        have := (hctr car).2; rwa [if_pos hmem] at this
      have hcw : countTC p res car .white = 0 := by omega
      refine ⟨by simp [hlen], fun t => ?_⟩
      obtain ⟨hw, hb⟩ := hctr t
      replace hw : countTC p res t .white = (if t ∈ wset then 1 else 0) := hw
      replace hb : countTC p res t .black = (if t ∈ bset then 1 else 0) := hb
      by_cases htc : t = car
      · subst htc
        constructor
        · simp [countTC_concat hlen, hcw]
        · simp [countTC_concat hlen, hb]
      · have htc' : ¬(car = t) := fun hh => htc hh.symm
        constructor
        · simp [countTC_concat hlen, htc', htc, hw]
        · simp [countTC_concat hlen, htc', hb]
    · have hstep : bStep (⟨wset, bset, res, ch, .black⟩ : BState T) car =
          ⟨wset, car :: bset, res ++ [.black], ch, .black⟩ := by
        simp [bStep, BState.sets, hmem, bPaint]
      rw [hstep]
      have hcb : countTC p res car .black = 0 := by
        have := (hctr car).2; rwa [if_neg hmem] at this
      refine ⟨by simp [hlen], fun t => ?_⟩
      obtain ⟨hw, hb⟩ := hctr t
      replace hw : countTC p res t .white = (if t ∈ wset then 1 else 0) := hw
      replace hb : countTC p res t .black = (if t ∈ bset then 1 else 0) := hb
      by_cases htc : t = car
      · subst htc
        constructor
        · simp [countTC_concat hlen, hw]
        · simp [countTC_concat hlen, hcb]
      · have htc' : ¬(car = t) := fun hh => htc hh.symm
        constructor
        · simp [countTC_concat hlen, htc', hw]
        · simp [countTC_concat hlen, htc', htc, hb]

theorem bGo_inv {T : Type} [DecidableEq T] :
    ∀ (rest p : List T) (s : BState T), BInv p s →
      (∀ t, occCount t (p ++ rest) ≤ 2) → BInv (p ++ rest) (bGo s rest) := by
  intro rest
  induction rest with
  | nil => intro p s h _; simpa [bGo] using h
  | cons car rest ih =>
    intro p s h hcnt
    have hle : occCount car p ≤ 1 := by
      have := hcnt car
      rw [occCount_append] at this
      simp [occCount_cons] at this
      omega
    have hstep := bStep_inv h hle
    have hcnt' : ∀ t, occCount t ((p ++ [car]) ++ rest) ≤ 2 := by
      intro t
      rw [List.append_assoc]
      simpa using hcnt t
    have := ih (p ++ [car]) (bStep s car) hstep hcnt'
    simpa [bGo, List.append_assoc] using this

theorem bGreedy_feasible {T : Type} [DecidableEq T] (seq : List T)
    (h2 : ∀ t ∈ seq, occCount t seq = 2) :
    feasibleBin seq (bGreedy seq).result = true := by
  have h0 : BInv ([] : List T) bInit := by
    refine ⟨rfl, fun t => ?_⟩
    simp [countTC_nil, bInit]
  have hcnt : ∀ t, occCount t (([] : List T) ++ seq) ≤ 2 := by
    intro t
    simp only [List.nil_append]
    by_cases ht : t ∈ seq
    · exact (h2 t ht).le
    · have h0' : occCount t seq = 0 := by
        rw [occCount, List.countP_eq_zero]
        intro u hu
        simp only [decide_eq_true_eq]
        intro he
        exact ht (he ▸ hu)
      omega
  have hinv := bGo_inv seq [] bInit h0 hcnt
  simp only [List.nil_append] at hinv
  obtain ⟨hlen, hctr⟩ := hinv
  show feasibleBin seq (bGo bInit seq).result = true
  rw [feasibleBin, Bool.and_eq_true, beq_iff_eq, List.all_eq_true]
  refine ⟨hlen.symm, fun t ht => ?_⟩
  rw [List.mem_dedup] at ht
  have hocc := h2 t ht
  have hsplit := countTC_split t seq (bGo bInit seq).result hlen
  obtain ⟨hw, hb⟩ := hctr t
  have hw1 : countTC seq (bGo bInit seq).result t .white ≤ 1 := by rw [hw]; split <;> omega
  have hb1 : countTC seq (bGo bInit seq).result t .black ≤ 1 := by rw [hb]; split <;> omega
  rw [Bool.and_eq_true, beq_iff_eq, beq_iff_eq]
  constructor <;> omega

/-! ## Exhaustive enumeration bounds -/

theorem minNat_le : ∀ (l : List Nat) (a : Nat), a ∈ l → ∃ m, minNat l = some m ∧ m ≤ a := by
  intro l
  induction l with
  | nil => intro a ha; simp at ha
  | cons b l ih =>
    intro a ha
    rw [List.mem_cons] at ha
    cases ha with
    | inl heq =>
      subst heq
      cases hmin : minNat l with
      | none => exact ⟨a, by simp [minNat, hmin], Nat.le_refl a⟩
      | some m => exact ⟨min a m, by simp [minNat, hmin], Nat.min_le_left a m⟩
    | inr hmem =>
      obtain ⟨m, hm1, hm2⟩ := ih a hmem
      exact ⟨min b m, by simp [minNat, hm1], Nat.le_trans (Nat.min_le_right b m) hm2⟩

theorem mem_allColorings : ∀ (c : List Color), c ∈ allColorings c.length := by
  intro c
  induction c with
  | nil => simp [allColorings]
  | cons x c ih =>
    show x :: c ∈ allColorings (c.length + 1)
    simp only [allColorings, List.mem_flatMap]
    exact ⟨c, ih, by cases x <;> simp⟩

/-- C1 amended: for every sequence in which every type occurs exactly twice
(implicit demand one white / one black per type), the binary Greedy
Assignor's coloring is demand-feasible, so its switch count is an upper
bound for — but not in general equal to — the minimum switch count over all
demand-feasible colorings. -/
theorem greedy_binary_feasible_and_bounds {T : Type} [DecidableEq T] (seq : List T)
    (h2 : ∀ t ∈ seq, occCount t seq = 2) :
    feasibleBin seq (bGreedy seq).result = true ∧
      ∃ m, minSwitches seq = some m ∧ m ≤ switches (bGreedy seq).result := by
  have hfeas := bGreedy_feasible seq h2
  refine ⟨hfeas, ?_⟩
  have hlen : (bGreedy seq).result.length = seq.length := by
    have hf := hfeas
    rw [feasibleBin, Bool.and_eq_true, beq_iff_eq] at hf
    exact hf.1
  have hmemall : (bGreedy seq).result ∈ allColorings seq.length := by
    have := mem_allColorings (bGreedy seq).result
    rwa [hlen] at this
  have hmemfil : (bGreedy seq).result ∈ (allColorings seq.length).filter (feasibleBin seq) :=
    List.mem_filter.mpr ⟨hmemall, hfeas⟩
  have hmemmap : switches (bGreedy seq).result ∈
      ((allColorings seq.length).filter (feasibleBin seq)).map switches :=
    List.mem_map_of_mem switches hmemfil
  exact minNat_le _ _ hmemmap

/-- Witness for the amended C1 on the notebook's binary sequence. -/
theorem greedy_binary_feasible_and_bounds_witness :
    feasibleBin seqEx (bGreedy seqEx).result = true ∧
      ∃ m, minSwitches seqEx = some m ∧ m ≤ switches (bGreedy seqEx).result :=
  greedy_binary_feasible_and_bounds seqEx (by decide)

/-- Witness for C4 at a concrete assignment. -/
theorem exact_objective_eq_switch_count_witness :
    objQuad ([true, false, false].map boolToInt) = (switches [true, false, false] : Int) :=
  exact_objective_eq_switch_count [true, false, false]

/-- Witness for the amended C5 at a concrete instance and demand. -/
theorem greedy_changes_eq_switches_witness :
    (mGreedy dwW dbW (("A" : String) :: ["A", "A"])).changes =
      switches (mGreedy dwW dbW (("A" : String) :: ["A", "A"])).result +
        (if 0 < dwW "A" then 0 else 1) :=
  greedy_changes_eq_switches dwW dbW "A" ["A", "A"]

/-- Witness for the amended C8 at a concrete demand and matrix. -/
theorem empty_instance_builds_empty_witness :
    buildForm ([] : List String) (fun _ => 1) = ⟨[], []⟩ ∧
      finalQubo 0 (fun _ _ => 0) = [] ∧ objQuad [] = 0 :=
  empty_instance_builds_empty (fun _ => 1) (fun _ _ => 0)

/-- Witness for C10 totality at a concrete instance. -/
theorem multi_greedy_total_witness :
    (mGreedy dwW dbW seq3).result.length = seq3.length :=
  multi_greedy_total.1 String inferInstance dwW dbW seq3

set_option maxRecDepth 100000 in
/-- C2: on the notebook's sequence `[A,D,E,B,A,F,C,B,C,D,E,F]` with the
implicit one-white/one-black demand per type, the binary Greedy Assignor
returns a coloring with exactly 4 switches, while the minimum switch count
over all demand-feasible colorings (exhaustive search over all 2^12
colorings) is 2. -/
theorem greedy_four_optimum_two :
    switches (bGreedy seqEx).result = 4 ∧ minSwitches seqEx = some 2 := by
  decide

set_option maxRecDepth 100000 in
/-- C1 counterexample: the notebook's own sequence has every type occurring
exactly twice, yet the binary Greedy Assignor's switch count is 4 while the
exhaustive minimum over all demand-feasible colorings is 2, so the greedy
switch count does not equal the optimum. -/
theorem binary_optimality_counterexample :
    seqEx.dedup.all (fun t => occCount t seqEx == 2) = true ∧
      switches (bGreedy seqEx).result = 4 ∧
      minSwitches seqEx = some 2 ∧
      switches (bGreedy seqEx).result ≠ 2 := by
  decide

end Paintshop
